import Mathlib

set_option maxHeartbeats 1000000

unseal Rat.add Rat.mul Rat.inv Rat.sub

/-!
Shallow embedding of the `MSF_Core` EKF core of ethzasl_msf.  The repository
sources provide the class declaration `src/msf_core/include/msf_core/msf_core.h`
(members, signatures, the default fuzzy-tracking threshold); the member bodies
live in `msf_core/implementation/msf_core.hpp`, `msf_sortedContainer.h`,
`msf_state.h` and `msf_checkFuzzyTracking.h`, which are not among the sources,
so those bodies are modelled from the specification, as marked on each
definition.  Timestamps and all numeric state (doubles in the code) are
modelled exactly over the rationals; orientation (a unit quaternion in the
code, whose renormalization is not rational-representable) is not part of the
modelled nominal state, and no claim below depends on it.
-/

namespace MsfCore

/-- Continuous time stamps (`double` in the code), modelled exactly. -/
abbrev Time := ℚ

/-- 3-vectors over exact rationals (`Eigen::Matrix<double, 3, 1>`). -/
structure Vector3 where
  x : ℚ
  y : ℚ
  z : ℚ
deriving DecidableEq

instance : Add Vector3 := ⟨fun a b => ⟨a.x + b.x, a.y + b.y, a.z + b.z⟩⟩

instance : Sub Vector3 := ⟨fun a b => ⟨a.x - b.x, a.y - b.y, a.z - b.z⟩⟩

/-- Scalar multiple of a 3-vector. -/
def Vector3.smul (r : ℚ) (v : Vector3) : Vector3 := ⟨r * v.x, r * v.y, r * v.z⟩

/-- Modelled from the spec: the nominal state carried by each buffered EKF
state (position, velocity, accelerometer bias, and a distinguished
non-temporally-drifting scalar component watched by the fuzzy tracker); the
full state layout of `msf_state.h` is not among the sources. -/
structure NominalState where
  p : Vector3
  v : Vector3
  b_a : Vector3
  nd : ℚ
deriving DecidableEq

/-- Modelled from the spec: the error-state correction vector, one block per
nominal component; composition with the nominal state is additive for vector
components (`msf_state.h` is not among the sources). -/
structure ErrorState where
  dp : Vector3
  dv : Vector3
  db_a : Vector3
  dnd : ℚ
deriving DecidableEq

/-- Modelled from the spec: a State History Buffer entry: a time-stamped
nominal state together with the inertial input recorded at this entry, enough
to re-derive the propagation to this entry during replay (`msf_state.h` is not
among the sources). -/
structure EKFState where
  time : Time
  state : NominalState
  a_m : Vector3
deriving DecidableEq

/-- Modelled from the spec: a Measurement History Buffer entry: time stamp,
originating sensor identity, and the error-state correction its (externally
supplied) measurement model induces at its bracketing state; the measurement
classes are not among the sources. -/
structure MeasurementBase where
  time : Time
  sensorID : ℤ
  correction : ErrorState
deriving DecidableEq

/-- Modelled from the spec: the fixed gravity vector `g_` used for gravity
compensation during propagation (its initialisation is not among the
sources). -/
def g_ : Vector3 := ⟨0, 0, 981 / 100⟩

/-- Modelled from the spec: `propagateState` — rigid-body kinematics with
bias-corrected inertial integration and gravity compensation; the new entry
records its own inertial input so that replay can re-derive it.  The body in
`implementation/msf_core.hpp` is not among the sources. -/
def propagateState (s_old : EKFState) (t : Time) (acc : Vector3) : EKFState :=
  let dt : ℚ := t - s_old.time
  let a : Vector3 := acc - s_old.state.b_a - g_
  { time := t
    state :=
      { p := s_old.state.p + Vector3.smul dt s_old.state.v +
             Vector3.smul (dt * dt / 2) a
        v := s_old.state.v + Vector3.smul dt a
        b_a := s_old.state.b_a
        nd := s_old.state.nd }
    a_m := acc }

/-- Modelled from the spec: add the error-state correction to the nominal
state at the corrected entry, additive composition per component. -/
def correctState (s : EKFState) (c : ErrorState) : EKFState :=
  { s with
    state :=
      { p := s.state.p + c.dp
        v := s.state.v + c.dv
        b_a := s.state.b_a + c.db_a
        nd := s.state.nd + c.dnd } }

/-- Modelled from the spec: the replay step of the Corrector — re-run
`propagateState` for every buffered entry after the corrected one, in
ascending time order, using each entry's original inertial inputs. -/
def replaySuffix (s : EKFState) : List EKFState → List EKFState
  | [] => []
  | e :: rest =>
    let e2 := propagateState s e.time e.a_m
    e2 :: replaySuffix e2 rest

/-- The chain of buffer entries produced by propagating a start state through
a list of (time stamp, inertial input) pairs, each step from its
predecessor. -/
def chainList (s : EKFState) : List (Time × Vector3) → List EKFState
  | [] => []
  | (t, a) :: rest =>
    propagateState s t a :: chainList (propagateState s t a) rest

/-- Locate the buffer entry with the exact given time stamp, returning the
entries before it, the entry, and the entries after it. -/
def splitAtTime (t : Time) : List EKFState → Option (List EKFState × EKFState × List EKFState)
  | [] => none
  | e :: rest =>
    if e.time = t then some ([], e, rest)
    else
      match splitAtTime t rest with
      | none => none
      | some (p, d, s) => some (e :: p, d, s)

/-- Time stamp of the last entry of a state buffer, with a default for the
empty buffer. -/
def lastTimeL (l : List EKFState) (dflt : Time) : Time :=
  match l.getLast? with
  | none => dflt
  | some e => e.time

/-- Modelled from the spec: the quantity the Fuzzy-Tracking Watchdog compares
against the threshold — the norm of the jump of the distinguished
non-temporally-drifting state component between the pre- and post-correction
state (`msf_checkFuzzyTracking.h` is not among the sources). -/
def nonDriftJump (before after : EKFState) : ℚ :=
  |after.state.nd - before.state.nd|

/-- Modelled from the spec: sorted insertion into the Measurement History
Buffer — strict ascending time stamp order, latest wins on exact-timestamp
collision (`msf_sortedContainer.h` is not among the sources). -/
def insertSortedMeas (m : MeasurementBase) : List MeasurementBase → List MeasurementBase
  | [] => [m]
  | e :: rest =>
    if m.time < e.time then m :: e :: rest
    else if m.time = e.time then m :: rest
    else e :: insertSortedMeas m rest

/-- The core filter state: the members of `MSF_Core` listed in
`src/msf_core/include/msf_core/msf_core.h`, lines 169-181. -/
structure MSF_Core where
  stateBuffer_ : List EKFState
  MeasurementBuffer_ : List MeasurementBase
  queueFutureMeasurements_ : List MeasurementBase
  time_P_propagated : Time
  initialized_ : Bool
  predictionMade_ : Bool
  isfuzzyState_ : Bool
deriving DecidableEq

/-- Modelled from the spec: the core right after construction — buffers empty,
not initialized, no prediction made, not fuzzy (the constructor body is not
among the sources). -/
def initialCore : MSF_Core :=
  { stateBuffer_ := []
    MeasurementBuffer_ := []
    queueFutureMeasurements_ := []
    time_P_propagated := 0
    initialized_ := false
    predictionMade_ := false
    isfuzzyState_ := false }

/-- Modelled from the spec: `init(measurement)` seeds the first State History
Buffer entry from the init measurement's provided values and moves the filter
from Uninitialized to Initialized/NoPrediction; buffers and flags are reset
(the body in `implementation/msf_core.hpp` is not among the sources). -/
def init (c : MSF_Core) (t : Time) (x0 : NominalState) (a0 : Vector3) : MSF_Core :=
  { c with
    stateBuffer_ := [⟨t, x0, a0⟩]
    MeasurementBuffer_ := []
    queueFutureMeasurements_ := []
    time_P_propagated := t
    initialized_ := true
    predictionMade_ := false
    isfuzzyState_ := false }

/-- Modelled from the spec: `applyCorrection(delaystate, correction,
fuzzythres)` — fails exactly when the filter is not initialized or the state
cannot be located in the buffer; otherwise applies the correction to the
located entry, runs the fuzzy-tracking watchdog (flagging, never rejecting),
replays every newer buffered entry from the corrected one, and leaves the
covariance horizon at the last replayed entry.  The body in
`implementation/msf_core.hpp` is not among the sources; the default threshold
`0.1` is declared in `msf_core.h`, line 191. -/
def applyCorrection (c : MSF_Core) (tState : Time) (correction : ErrorState)
    (fuzzythres : ℚ := 1 / 10) : MSF_Core × Bool :=
  if c.initialized_ = false then (c, false)
  else
    match splitAtTime tState c.stateBuffer_ with
    | none => (c, false)
    | some (pre, d, suf) =>
      let d2 := correctState d correction
      let fuzzy := decide (fuzzythres < nonDriftJump d d2)
      let newBuf := pre ++ d2 :: replaySuffix d2 suf
      ({ c with
          stateBuffer_ := newBuf
          isfuzzyState_ := c.isfuzzyState_ || fuzzy
          time_P_propagated := lastTimeL newBuf c.time_P_propagated }, true)

/-- Modelled from the spec: `getClosestState(tstamp)` — the buffer entry with
time stamp nearest to the request, ties broken toward the earlier entry;
empty when the buffer has no entries. -/
def getClosestStateList (t : Time) : List EKFState → Option EKFState
  | [] => none
  | e :: rest =>
    some (rest.foldl (fun best cand =>
      if |cand.time - t| < |best.time - t| then cand else best) e)

/-- Modelled from the spec: `getClosestState` fails (returns empty) when the
filter is Uninitialized or the buffer has no entries. -/
def getClosestState (c : MSF_Core) (t : Time) : Option EKFState :=
  if c.initialized_ = false then none
  else getClosestStateList t c.stateBuffer_

/-- Modelled from the spec: `getStateAtTime(tstamp)` — the buffer entry with
the exact requested time stamp; fails (returns empty) when the filter is
Uninitialized or the buffer has no entries. -/
def getStateAtTime (c : MSF_Core) (t : Time) : Option EKFState :=
  if c.initialized_ = false then none
  else c.stateBuffer_.find? (fun e => decide (e.time = t))

/-- Modelled from the spec: apply a measurement whose bracket lies within the
propagated horizon — locate the bracketing (closest) state, apply its
correction through `applyCorrection`, and, on success, record the measurement
in the Measurement History Buffer (a measurement entry is created when a
correction is actually applied, not merely received). -/
def applyMeasurement (c : MSF_Core) (m : MeasurementBase) : MSF_Core :=
  match getClosestState c m.time with
  | none => c
  | some s =>
    let r := applyCorrection c s.time m.correction
    if r.2 then
      { r.1 with MeasurementBuffer_ := insertSortedMeas m r.1.MeasurementBuffer_ }
    else r.1

/-- Modelled from the spec: `addMeasurement` in the Active state applies the
measurement immediately when its bracket lies within the propagated horizon
and otherwise appends it to the Future-Measurement Queue; before the filter is
initialized and a prediction is made it is a no-op. -/
def addMeasurement (c : MSF_Core) (m : MeasurementBase) : MSF_Core :=
  if c.initialized_ && c.predictionMade_ then
    if m.time ≤ c.time_P_propagated then applyMeasurement c m
    else { c with queueFutureMeasurements_ := c.queueFutureMeasurements_ ++ [m] }
  else c

/-- Modelled from the spec: `propagatePOneStep` advances the covariance
horizon by exactly one buffered step — to the first buffer entry strictly
after the current horizon, if any. -/
def propagatePOneStep (c : MSF_Core) : MSF_Core :=
  match c.stateBuffer_.find? (fun e => decide (c.time_P_propagated < e.time)) with
  | none => c
  | some e => { c with time_P_propagated := e.time }

/-- Modelled from the spec: drain the Future-Measurement Queue front to back,
applying each measurement whose time stamp now lies within the horizon and
stopping at the first that does not (a FIFO queue exposes only its front). -/
def drainLoop : List MeasurementBase → MSF_Core → MSF_Core
  | [], c => c
  | m :: rest, c =>
    if m.time ≤ c.time_P_propagated then drainLoop rest (applyMeasurement c m)
    else { c with queueFutureMeasurements_ := m :: rest }

/-- Modelled from the spec: `handlePendingMeasurements`, invoked after each
propagation step, drains queued measurements now within the horizon in strict
FIFO arrival order. -/
def handlePendingMeasurements (c : MSF_Core) : MSF_Core :=
  drainLoop c.queueFutureMeasurements_ { c with queueFutureMeasurements_ := [] }

/-- Modelled from the spec: `process_imu` — when the filter is initialized and
the sample is newer than the last buffered state, append the propagated state,
record that a prediction was made, advance the covariance horizon one buffered
step, and retry queued future measurements.  Angular velocity drives only the
orientation part of the state, which is outside the modelled nominal state. -/
def process_imu (c : MSF_Core) (linear_acceleration : Vector3) (msg_stamp : Time) : MSF_Core :=
  if c.initialized_ = false then c
  else
    match c.stateBuffer_.getLast? with
    | none => c
    | some last =>
      if msg_stamp ≤ last.time then c
      else
        let c1 :=
          { c with
            stateBuffer_ :=
              c.stateBuffer_ ++ [propagateState last msg_stamp linear_acceleration]
            predictionMade_ := true }
        handlePendingMeasurements (propagatePOneStep c1)

/-- Modelled from the spec: `CleanUpBuffers` prunes both histories, removing
every entry whose time stamp lies strictly before the retention cutoff — the
latest buffered state's time minus the configured maximum tolerated sensor
delay `d`. -/
def CleanUpBuffers (d : ℚ) (c : MSF_Core) : MSF_Core :=
  match c.stateBuffer_.getLast? with
  | none => c
  | some last =>
    let cutoff := last.time - d
    { c with
      stateBuffer_ := c.stateBuffer_.filter (fun e => decide (cutoff ≤ e.time))
      MeasurementBuffer_ := c.MeasurementBuffer_.filter (fun m => decide (cutoff ≤ m.time)) }

/-- The public operations of an initialized core, for stating properties over
arbitrary operation sequences. -/
inductive Op
  | imu (t : Time) (a : Vector3)
  | meas (m : MeasurementBase)
  | correct (t : Time) (corr : ErrorState) (th : ℚ)
  | cleanup (d : ℚ)

/-- One core operation. -/
def step : Op → MSF_Core → MSF_Core
  | .imu t a, c => process_imu c a t
  | .meas m, c => addMeasurement c m
  | .correct t corr th, c => (applyCorrection c t corr th).1
  | .cleanup d, c => CleanUpBuffers d c

/-- A sequence of core operations, applied left to right. -/
def run (ops : List Op) (c : MSF_Core) : MSF_Core :=
  match ops with
  | [] => c
  | op :: rest => run rest (step op c)

/-- Well-formedness of an operation's parameters: the configured maximum
sensor delay tolerance is nonnegative. -/
def OpOK : Op → Prop
  | .cleanup d => 0 ≤ d
  | _ => True

/-- The structural invariant of the core: both history buffers strictly
increasing (hence unique) by time stamp, a nonempty state buffer once
initialized, and the covariance horizon at or before the newest buffered
state. -/
abbrev Good (c : MSF_Core) : Prop :=
  List.Pairwise (· < ·) (c.stateBuffer_.map EKFState.time) ∧
  List.Pairwise (· < ·) (c.MeasurementBuffer_.map MeasurementBase.time) ∧
  (c.initialized_ = true → c.stateBuffer_ ≠ []) ∧
  c.time_P_propagated ≤ lastTimeL c.stateBuffer_ c.time_P_propagated

/-- The reachable cores: constructed, then initialized, then driven by
well-formed operations. -/
inductive Reachable : MSF_Core → Prop
  | ctor : Reachable initialCore
  | initStep (c : MSF_Core) (t : Time) (x0 : NominalState) (a0 : Vector3) :
      Reachable c → Reachable (init c t x0 a0)
  | opStep (c : MSF_Core) (op : Op) :
      Reachable c → OpOK op → Reachable (step op c)

instance (op : Op) : Decidable (OpOK op) := by
  cases op with
  | imu t a => exact inferInstanceAs (Decidable True)
  | meas m => exact inferInstanceAs (Decidable True)
  | correct t corr th => exact inferInstanceAs (Decidable True)
  | cleanup dl => exact inferInstanceAs (Decidable (0 ≤ dl))

/-- Feed a list of (time stamp, inertial input) samples to `process_imu` in
order. -/
def runImu (c : MSF_Core) : List (Time × Vector3) → MSF_Core
  | [] => c
  | (t, a) :: rest => runImu (process_imu c a t) rest

/-- Strictly ascending sample times, all beyond the given time. -/
def chainAbove (t : Time) : List (Time × Vector3) → Bool
  | [] => true
  | (u, _) :: rest => decide (t < u) && chainAbove u rest

/-- A zero nominal state, used by the concrete example cores below. -/
def exN : NominalState := ⟨⟨0, 0, 0⟩, ⟨0, 0, 0⟩, ⟨0, 0, 0⟩, 0⟩

/-- The first State History Buffer entry of the example cores. -/
def exSeed : EKFState := ⟨0, exN, ⟨0, 0, 0⟩⟩

/-- The entry appended by the first example propagation step. -/
def exE1 : EKFState := propagateState exSeed 1 ⟨1, 0, 0⟩

/-- A concrete initialized core. -/
def exCore0 : MSF_Core := init initialCore 0 exN ⟨0, 0, 0⟩

/-- The concrete core after one inertial propagation step. -/
def exCore1 : MSF_Core := process_imu exCore0 ⟨1, 0, 0⟩ 1

/-- A concrete error-state correction used by the example corrections. -/
def exCorr : ErrorState := ⟨⟨1, 0, 0⟩, ⟨0, 0, 0⟩, ⟨0, 0, 0⟩, 1⟩

/-- `propagateState` stamps the new entry with the requested time. -/
theorem propagateState_time (s : EKFState) (t : Time) (a : Vector3) :
    (propagateState s t a).time = t := rfl

/-- `propagateState` records the inertial input on the new entry. -/
theorem propagateState_a_m (s : EKFState) (t : Time) (a : Vector3) :
    (propagateState s t a).a_m = a := rfl

/-- `correctState` does not change the entry's time stamp. -/
theorem correctState_time (s : EKFState) (c : ErrorState) :
    (correctState s c).time = s.time := rfl

/-- Replay preserves the time stamps of the replayed suffix. -/
theorem replaySuffix_map_time (s : EKFState) (l : List EKFState) :
    (replaySuffix s l).map EKFState.time = l.map EKFState.time := by
  induction l generalizing s with
  | nil => rfl
  | cons e rest ih =>
    simp [replaySuffix, ih, propagateState_time]

/-- Replaying a propagated chain from a different start just re-propagates the
chain from that start. -/
theorem replaySuffix_chainList (inputs : List (Time × Vector3)) :
    ∀ s s' : EKFState, replaySuffix s' (chainList s inputs) = chainList s' inputs := by
  induction inputs with
  | nil => intro s s'; rfl
  | cons ta rest ih =>
    intro s s'
    obtain ⟨t, a⟩ := ta
    simp only [chainList, replaySuffix, propagateState_time, propagateState_a_m]
    exact congrArg _ (ih _ _)

/-- A successful `splitAtTime` decomposes the buffer around the located
entry, whose time stamp is the requested one. -/
theorem splitAtTime_eq (t : Time) :
    ∀ l pre d suf, splitAtTime t l = some (pre, d, suf) →
      l = pre ++ d :: suf ∧ d.time = t := by
  intro l
  induction l with
  | nil => intro pre d suf h; simp [splitAtTime] at h
  | cons e rest ih =>
    intro pre d suf h
    simp only [splitAtTime] at h
    by_cases he : e.time = t
    · simp [he] at h
      obtain ⟨h1, h2, h3⟩ := h
      subst h1 h2 h3
      exact ⟨rfl, he⟩
    · simp only [he, if_false] at h
      cases hs : splitAtTime t rest with
      | none => rw [hs] at h; simp at h
      | some pds =>
        obtain ⟨p, d0, s0⟩ := pds
        rw [hs] at h
        simp at h
        obtain ⟨h1, h2, h3⟩ := h
        obtain ⟨hl, ht⟩ := ih p d0 s0 hs
        subst h2 h3
        rw [← h1]
        exact ⟨by rw [hl]; simp, ht⟩

/-- `splitAtTime` finds the entry with the requested time when no earlier
entry carries it. -/
theorem splitAtTime_append (t : Time) (d : EKFState) (suf : List EKFState) (hd : d.time = t) :
    ∀ pre, (∀ x ∈ pre, x.time ≠ t) →
      splitAtTime t (pre ++ d :: suf) = some (pre, d, suf) := by
  intro pre
  induction pre with
  | nil => intro _; simp [splitAtTime, hd]
  | cons e rest ih =>
    intro hne
    have he : e.time ≠ t := hne e (by simp)
    simp only [List.cons_append, splitAtTime, List.append_eq]
    rw [if_neg he, ih (fun x hx => hne x (by simp [hx]))]

/-- Every element of a sorted insertion is the new measurement or an old
element. -/
theorem mem_insertSortedMeas (m : MeasurementBase) :
    ∀ l y, y ∈ insertSortedMeas m l → y = m ∨ y ∈ l := by
  intro l
  induction l with
  | nil => intro y hy; simp [insertSortedMeas] at hy; exact Or.inl hy
  | cons e rest ih =>
    intro y hy
    simp only [insertSortedMeas] at hy
    by_cases h1 : m.time < e.time
    · simp [h1] at hy
      rcases hy with h | h | h
      · exact Or.inl h
      · exact Or.inr (by simp [h])
      · exact Or.inr (by simp [h])
    · by_cases h2 : m.time = e.time
      · simp [h1, h2] at hy
        rcases hy with h | h
        · exact Or.inl h
        · exact Or.inr (by simp [h])
      · simp [h1, h2] at hy
        rcases hy with h | h
        · exact Or.inr (by simp [h])
        · rcases ih y h with h' | h'
          · exact Or.inl h'
          · exact Or.inr (by simp [h'])

/-- Sorted insertion keeps the Measurement History Buffer strictly increasing
by time stamp. -/
theorem pairwise_insertSortedMeas (m : MeasurementBase) :
    ∀ l, List.Pairwise (· < ·) (l.map MeasurementBase.time) →
      List.Pairwise (· < ·) ((insertSortedMeas m l).map MeasurementBase.time) := by
  intro l
  induction l with
  | nil => intro _; simp [insertSortedMeas]
  | cons e rest ih =>
    intro hp
    rw [List.map_cons, List.pairwise_cons] at hp
    obtain ⟨hhead, htail⟩ := hp
    simp only [insertSortedMeas]
    by_cases h1 : m.time < e.time
    · rw [if_pos h1]
      simp only [List.map_cons, List.pairwise_cons]
      refine ⟨?_, hhead, htail⟩
      intro b hb
      rcases List.mem_cons.mp hb with hb | hb
      · rw [hb]; exact h1
      · exact lt_trans h1 (hhead b hb)
    · by_cases h2 : m.time = e.time
      · rw [if_neg h1, if_pos h2]
        simp only [List.map_cons, List.pairwise_cons]
        refine ⟨?_, htail⟩
        intro b hb
        rw [h2]
        exact hhead b hb
      · rw [if_neg h1, if_neg h2]
        simp only [List.map_cons, List.pairwise_cons]
        refine ⟨?_, ih htail⟩
        intro b hb
        simp only [List.mem_map] at hb
        obtain ⟨y, hy, hby⟩ := hb
        have h3 : e.time < m.time := lt_of_le_of_ne (not_lt.mp h1) (fun hc => h2 hc.symm)
        rcases mem_insertSortedMeas m rest y hy with h' | h'
        · rw [← hby, h']; exact h3
        · exact hhead b (by rw [← hby]; exact List.mem_map_of_mem _ h')

/-- `lastTimeL` ignores its default on a nonempty buffer. -/
theorem lastTimeL_nonempty (l : List EKFState) (hl : l ≠ []) (x y : Time) :
    lastTimeL l x = lastTimeL l y := by
  unfold lastTimeL
  cases h : l.getLast? with
  | none => exact absurd (List.getLast?_eq_none_iff.mp h) hl
  | some e => rfl

/-- `lastTimeL` is determined by the buffer's time stamps. -/
theorem lastTimeL_eq_of_map_time (l1 l2 : List EKFState) (x : Time)
    (h : l1.map EKFState.time = l2.map EKFState.time) :
    lastTimeL l1 x = lastTimeL l2 x := by
  have hm : Option.map EKFState.time l1.getLast? = Option.map EKFState.time l2.getLast? := by
    rw [← List.getLast?_map, ← List.getLast?_map, h]
  unfold lastTimeL
  cases hc1 : l1.getLast? with
  | none =>
    cases hc2 : l2.getLast? with
    | none => rfl
    | some e2 => rw [hc1, hc2] at hm; simp at hm
  | some e1 =>
    cases hc2 : l2.getLast? with
    | none => rw [hc1, hc2] at hm; simp at hm
    | some e2 => rw [hc1, hc2] at hm; simp at hm; exact hm

/-- In a strictly time-ordered buffer every entry's time stamp is at most the
last entry's. -/
theorem time_le_lastTimeL :
    ∀ (l : List EKFState), List.Pairwise (· < ·) (l.map EKFState.time) →
      ∀ e ∈ l, ∀ x, e.time ≤ lastTimeL l x := by
  intro l
  induction l with
  | nil => intro _ e he; exact absurd he (List.not_mem_nil e)
  | cons a rest ih =>
    intro hp e he x
    rw [List.map_cons, List.pairwise_cons] at hp
    obtain ⟨hhead, htail⟩ := hp
    cases rest with
    | nil =>
      rcases List.mem_cons.mp he with h | h
      · subst h; simp [lastTimeL]
      · exact absurd h (List.not_mem_nil e)
    | cons b rest2 =>
      have hlast : lastTimeL (a :: b :: rest2) x = lastTimeL (b :: rest2) x := by
        unfold lastTimeL; rw [List.getLast?_cons_cons]
      rw [hlast]
      rcases List.mem_cons.mp he with h | h
      · subst h
        have h1 : e.time < b.time := hhead b.time (by simp)
        have h2 : b.time ≤ lastTimeL (b :: rest2) x := ih htail b (by simp) x
        exact le_of_lt (lt_of_lt_of_le h1 h2)
      · exact ih htail e h x

/-- Pruning keeps the last entry whenever the retention predicate holds on
it. -/
theorem getLast?_filter_keep {α : Type} (p : α → Bool) :
    ∀ (l : List α) (a : α), l.getLast? = some a → p a = true →
      (l.filter p).getLast? = some a := by
  intro l
  induction l with
  | nil => intro a h _; simp at h
  | cons b rest ih =>
    intro a h hp
    cases rest with
    | nil =>
      simp at h
      subst h
      simp [List.filter_cons, hp]
    | cons c rest2 =>
      rw [List.getLast?_cons_cons] at h
      have ih2 := ih a h hp
      rw [List.filter_cons]
      by_cases hb : p b = true
      · rw [if_pos hb]
        cases hf : (c :: rest2).filter p with
        | nil => rw [hf] at ih2; simp at ih2
        | cons d rest3 =>
          rw [hf] at ih2
          rw [List.getLast?_cons_cons]
          exact ih2
      · rw [if_neg hb]
        exact ih2

/-- `applyCorrection` when the filter is not initialized: failure, no
change. -/
theorem applyCorrection_not_initialized (c : MSF_Core) (t : Time) (corr : ErrorState)
    (th : ℚ) (h : c.initialized_ = false) :
    applyCorrection c t corr th = (c, false) := by
  unfold applyCorrection
  rw [h]
  simp

/-- `applyCorrection` when the requested state is not in the buffer: failure,
no change. -/
theorem applyCorrection_not_found (c : MSF_Core) (t : Time) (corr : ErrorState)
    (th : ℚ) (hinit : c.initialized_ = true)
    (h : splitAtTime t c.stateBuffer_ = none) :
    applyCorrection c t corr th = (c, false) := by
  unfold applyCorrection
  rw [hinit, if_neg (by simp), h]

/-- Characterization of a successful `applyCorrection`: the located entry is
corrected, the suffix is replayed from it, the fuzzy flag latches when the
non-drifting jump exceeds the threshold, and the covariance horizon moves to
the last replayed entry. -/
theorem applyCorrection_success (c : MSF_Core) (t : Time) (corr : ErrorState) (th : ℚ)
    (pre : List EKFState) (d : EKFState) (suf : List EKFState)
    (hinit : c.initialized_ = true)
    (hsplit : splitAtTime t c.stateBuffer_ = some (pre, d, suf)) :
    applyCorrection c t corr th =
      ({ c with
          stateBuffer_ := pre ++ correctState d corr :: replaySuffix (correctState d corr) suf
          isfuzzyState_ := c.isfuzzyState_ || decide (th < nonDriftJump d (correctState d corr))
          time_P_propagated :=
            lastTimeL (pre ++ correctState d corr :: replaySuffix (correctState d corr) suf)
              c.time_P_propagated }, true) := by
  unfold applyCorrection
  rw [hinit, if_neg (by simp), hsplit]

/-- `applyCorrection` preserves the time stamps of the State History Buffer
exactly. -/
theorem applyCorrection_map_time (c : MSF_Core) (t : Time) (corr : ErrorState) (th : ℚ) :
    ((applyCorrection c t corr th).1.stateBuffer_).map EKFState.time
      = c.stateBuffer_.map EKFState.time := by
  cases hb : c.initialized_ with
  | false => rw [applyCorrection_not_initialized c t corr th hb]
  | true =>
    cases hsplit : splitAtTime t c.stateBuffer_ with
    | none => rw [applyCorrection_not_found c t corr th hb hsplit]
    | some pds =>
      obtain ⟨pre, d, suf⟩ := pds
      rw [applyCorrection_success c t corr th pre d suf hb hsplit]
      obtain ⟨hbuf, hdt⟩ := splitAtTime_eq t c.stateBuffer_ pre d suf hsplit
      rw [hbuf]
      simp [List.map_append, replaySuffix_map_time, correctState_time]

/-- `applyCorrection` preserves the structural invariant and never moves the
covariance horizon backwards. -/
theorem applyCorrection_good (c : MSF_Core) (t : Time) (corr : ErrorState) (th : ℚ)
    (h : Good c) :
    Good (applyCorrection c t corr th).1 ∧
      c.time_P_propagated ≤ (applyCorrection c t corr th).1.time_P_propagated := by
  obtain ⟨g1, g2, g3, g4⟩ := h
  cases hb : c.initialized_ with
  | false =>
    rw [applyCorrection_not_initialized c t corr th hb]
    exact ⟨⟨g1, g2, g3, g4⟩, le_refl _⟩
  | true =>
    cases hsplit : splitAtTime t c.stateBuffer_ with
    | none =>
      rw [applyCorrection_not_found c t corr th hb hsplit]
      exact ⟨⟨g1, g2, g3, g4⟩, le_refl _⟩
    | some pds =>
      obtain ⟨pre, d, suf⟩ := pds
      rw [applyCorrection_success c t corr th pre d suf hb hsplit]
      obtain ⟨hbuf, hdt⟩ := splitAtTime_eq t c.stateBuffer_ pre d suf hsplit
      have hmap : (pre ++ correctState d corr :: replaySuffix (correctState d corr) suf).map
          EKFState.time = c.stateBuffer_.map EKFState.time := by
        rw [hbuf]
        simp [List.map_append, replaySuffix_map_time, correctState_time]
      have hnew_ne : pre ++ correctState d corr :: replaySuffix (correctState d corr) suf ≠ [] := by
        simp
      have hlast : lastTimeL (pre ++ correctState d corr :: replaySuffix (correctState d corr) suf)
          c.time_P_propagated = lastTimeL c.stateBuffer_ c.time_P_propagated :=
        lastTimeL_eq_of_map_time _ _ _ hmap
      constructor
      · refine ⟨?_, g2, fun _ => hnew_ne, ?_⟩
        · rw [hmap]; exact g1
        · exact le_of_eq (lastTimeL_nonempty _ hnew_ne _ _)
      · rw [hlast]
        exact g4

/-- `applyMeasurement` preserves the structural invariant and never moves the
covariance horizon backwards. -/
theorem applyMeasurement_good (c : MSF_Core) (m : MeasurementBase) (h : Good c) :
    Good (applyMeasurement c m) ∧
      c.time_P_propagated ≤ (applyMeasurement c m).time_P_propagated := by
  cases hg : getClosestState c m.time with
  | none => simp only [applyMeasurement, hg]; exact ⟨h, le_refl _⟩
  | some s =>
    simp only [applyMeasurement, hg]
    have hac := applyCorrection_good c s.time m.correction (1 / 10) h
    by_cases hr : (applyCorrection c s.time m.correction).2 = true
    · rw [if_pos hr]
      obtain ⟨⟨a1, a2, a3, a4⟩, hmono⟩ := hac
      exact ⟨⟨a1, pairwise_insertSortedMeas m _ a2, a3, a4⟩, hmono⟩
    · rw [if_neg hr]
      exact hac

/-- `addMeasurement` preserves the structural invariant and never moves the
covariance horizon backwards. -/
theorem addMeasurement_good (c : MSF_Core) (m : MeasurementBase) (h : Good c) :
    Good (addMeasurement c m) ∧
      c.time_P_propagated ≤ (addMeasurement c m).time_P_propagated := by
  unfold addMeasurement
  by_cases h1 : (c.initialized_ && c.predictionMade_) = true
  · rw [if_pos h1]
    by_cases h2 : m.time ≤ c.time_P_propagated
    · rw [if_pos h2]
      exact applyMeasurement_good c m h
    · rw [if_neg h2]
      obtain ⟨g1, g2, g3, g4⟩ := h
      exact ⟨⟨g1, g2, g3, g4⟩, le_refl _⟩
  · rw [if_neg h1]
    exact ⟨h, le_refl _⟩

/-- `propagatePOneStep` preserves the structural invariant and never moves the
covariance horizon backwards. -/
theorem propagatePOneStep_good (c : MSF_Core) (h : Good c) :
    Good (propagatePOneStep c) ∧
      c.time_P_propagated ≤ (propagatePOneStep c).time_P_propagated := by
  obtain ⟨g1, g2, g3, g4⟩ := h
  cases hf : c.stateBuffer_.find? (fun e => decide (c.time_P_propagated < e.time)) with
  | none =>
    simp only [propagatePOneStep, hf]
    exact ⟨⟨g1, g2, g3, g4⟩, le_refl _⟩
  | some e =>
    simp only [propagatePOneStep, hf]
    have hmem : e ∈ c.stateBuffer_ := List.mem_of_find?_eq_some hf
    have hps := List.find?_some hf
    have hlt : c.time_P_propagated < e.time := by simpa using hps
    exact ⟨⟨g1, g2, g3, time_le_lastTimeL c.stateBuffer_ g1 e hmem e.time⟩, le_of_lt hlt⟩

/-- Draining the future queue preserves the structural invariant and never
moves the covariance horizon backwards. -/
theorem drainLoop_good : ∀ (q : List MeasurementBase) (c : MSF_Core), Good c →
    Good (drainLoop q c) ∧ c.time_P_propagated ≤ (drainLoop q c).time_P_propagated := by
  intro q
  induction q with
  | nil => intro c h; exact ⟨h, le_refl _⟩
  | cons m rest ih =>
    intro c h
    simp only [drainLoop]
    by_cases hm : m.time ≤ c.time_P_propagated
    · rw [if_pos hm]
      have h1 := applyMeasurement_good c m h
      have h2 := ih (applyMeasurement c m) h1.1
      exact ⟨h2.1, le_trans h1.2 h2.2⟩
    · rw [if_neg hm]
      obtain ⟨g1, g2, g3, g4⟩ := h
      exact ⟨⟨g1, g2, g3, g4⟩, le_refl _⟩

/-- `handlePendingMeasurements` preserves the structural invariant and never
moves the covariance horizon backwards. -/
theorem handlePendingMeasurements_good (c : MSF_Core) (h : Good c) :
    Good (handlePendingMeasurements c) ∧
      c.time_P_propagated ≤ (handlePendingMeasurements c).time_P_propagated := by
  have h' : Good { c with queueFutureMeasurements_ := [] } := h
  exact drainLoop_good c.queueFutureMeasurements_ { c with queueFutureMeasurements_ := [] } h'

/-- `process_imu` preserves the structural invariant and never moves the
covariance horizon backwards. -/
theorem process_imu_good (c : MSF_Core) (a : Vector3) (t : Time) (h : Good c) :
    Good (process_imu c a t) ∧
      c.time_P_propagated ≤ (process_imu c a t).time_P_propagated := by
  obtain ⟨g1, g2, g3, g4⟩ := h
  cases hb : c.initialized_ with
  | false =>
    simp only [process_imu, hb, if_true]
    exact ⟨⟨g1, g2, g3, g4⟩, le_refl _⟩
  | true =>
    have hinitne : ¬(c.initialized_ = false) := by simp [hb]
    cases hl : c.stateBuffer_.getLast? with
    | none =>
      simp only [process_imu, if_neg hinitne, hl]
      exact ⟨⟨g1, g2, g3, g4⟩, le_refl _⟩
    | some last =>
      by_cases ht : t ≤ last.time
      · simp only [process_imu, if_neg hinitne, hl, if_pos ht]
        exact ⟨⟨g1, g2, g3, g4⟩, le_refl _⟩
      · simp only [process_imu, if_neg hinitne, hl, if_neg ht]
        have hlastT : lastTimeL c.stateBuffer_ c.time_P_propagated = last.time := by
          unfold lastTimeL; rw [hl]
        have hallLt : ∀ x ∈ c.stateBuffer_, x.time < t := by
          intro x hx
          have h1 := time_le_lastTimeL c.stateBuffer_ g1 x hx c.time_P_propagated
          rw [hlastT] at h1
          exact lt_of_le_of_lt h1 (not_le.mp ht)
        have hc1 : Good { c with
            stateBuffer_ := c.stateBuffer_ ++ [propagateState last t a]
            predictionMade_ := true } := by
          refine ⟨?_, g2, fun _ => by simp, ?_⟩
          · rw [List.map_append]
            rw [List.pairwise_append]
            refine ⟨g1, by simp, ?_⟩
            intro u hu v hv
            simp only [List.map_cons, List.map_nil, List.mem_cons, propagateState_time,
              List.not_mem_nil, or_false] at hv
            obtain ⟨y, hy, hyu⟩ := List.mem_map.mp hu
            rw [hv, ← hyu]
            exact hallLt y hy
          · have hl2 : (c.stateBuffer_ ++ [propagateState last t a]).getLast?
                = some (propagateState last t a) := List.getLast?_concat _
            have hlt2 : lastTimeL (c.stateBuffer_ ++ [propagateState last t a])
                c.time_P_propagated = t := by
              unfold lastTimeL
              rw [hl2]
              rfl
            show c.time_P_propagated ≤
              lastTimeL (c.stateBuffer_ ++ [propagateState last t a]) c.time_P_propagated
            rw [hlt2]
            have g4' : c.time_P_propagated ≤ last.time := by rw [← hlastT]; exact g4
            exact le_of_lt (lt_of_le_of_lt g4' (not_le.mp ht))
        have hp1 := propagatePOneStep_good _ hc1
        have hp2 := handlePendingMeasurements_good _ hp1.1
        exact ⟨hp2.1, le_trans (le_refl _) (le_trans hp1.2 hp2.2)⟩

/-- `CleanUpBuffers` preserves the structural invariant and never moves the
covariance horizon backwards, for a nonnegative delay tolerance. -/
theorem CleanUpBuffers_good (dl : ℚ) (c : MSF_Core) (hd : 0 ≤ dl) (h : Good c) :
    Good (CleanUpBuffers dl c) ∧
      c.time_P_propagated ≤ (CleanUpBuffers dl c).time_P_propagated := by
  obtain ⟨g1, g2, g3, g4⟩ := h
  cases hl : c.stateBuffer_.getLast? with
  | none =>
    simp only [CleanUpBuffers, hl]
    exact ⟨⟨g1, g2, g3, g4⟩, le_refl _⟩
  | some last =>
    simp only [CleanUpBuffers, hl]
    have hkeep : (fun e : EKFState => decide (last.time - dl ≤ e.time)) last = true :=
      decide_eq_true (by linarith)
    have hlast2 := getLast?_filter_keep (fun e : EKFState => decide (last.time - dl ≤ e.time))
      c.stateBuffer_ last hl hkeep
    have hlastT : lastTimeL c.stateBuffer_ c.time_P_propagated = last.time := by
      unfold lastTimeL; rw [hl]
    refine ⟨⟨?_, ?_, ?_, ?_⟩, le_refl _⟩
    · exact List.Pairwise.sublist (List.Sublist.map _ (List.filter_sublist _)) g1
    · exact List.Pairwise.sublist (List.Sublist.map _ (List.filter_sublist _)) g2
    · intro _ hc
      have hc2 : c.stateBuffer_.filter (fun e => decide (last.time - dl ≤ e.time)) = [] := hc
      rw [hc2] at hlast2
      simp at hlast2
    · have hlt3 : lastTimeL (c.stateBuffer_.filter (fun e => decide (last.time - dl ≤ e.time)))
          c.time_P_propagated = last.time := by
        unfold lastTimeL
        rw [hlast2]
      show c.time_P_propagated ≤
        lastTimeL (c.stateBuffer_.filter (fun e => decide (last.time - dl ≤ e.time)))
          c.time_P_propagated
      rw [hlt3, ← hlastT]
      exact g4

/-- Every single operation preserves the structural invariant and never moves
the covariance horizon backwards. -/
theorem step_good (op : Op) (c : MSF_Core) (h : Good c) (hok : OpOK op) :
    Good (step op c) ∧ c.time_P_propagated ≤ (step op c).time_P_propagated := by
  cases op with
  | imu t a => exact process_imu_good c a t h
  | meas m => exact addMeasurement_good c m h
  | correct t corr th => exact applyCorrection_good c t corr th h
  | cleanup dl => exact CleanUpBuffers_good dl c hok h

/-- Operation sequences preserve the structural invariant and never move the
covariance horizon backwards. -/
theorem run_good : ∀ (ops : List Op) (c : MSF_Core), Good c → (∀ op ∈ ops, OpOK op) →
    Good (run ops c) ∧ c.time_P_propagated ≤ (run ops c).time_P_propagated := by
  intro ops
  induction ops with
  | nil => intro c h _; exact ⟨h, le_refl _⟩
  | cons op rest ih =>
    intro c h hok
    simp only [run]
    have h1 := step_good op c h (hok op (by simp))
    have h2 := ih (step op c) h1.1 (fun o ho => hok o (by simp [ho]))
    exact ⟨h2.1, le_trans h1.2 h2.2⟩

/-- Every reachable core satisfies the structural invariant. -/
theorem reachable_good : ∀ (c : MSF_Core), Reachable c → Good c := by
  intro c h
  induction h with
  | ctor => decide
  | initStep c t x0 a0 _ _ =>
    refine ⟨?_, ?_, ?_, ?_⟩ <;> simp [init, lastTimeL]
  | opStep c op _ hok ih => exact (step_good op c ih hok).1

/-- `propagatePOneStep` changes at most the covariance horizon. -/
theorem propagatePOneStep_fields (c : MSF_Core) :
    (propagatePOneStep c).stateBuffer_ = c.stateBuffer_ ∧
    (propagatePOneStep c).MeasurementBuffer_ = c.MeasurementBuffer_ ∧
    (propagatePOneStep c).queueFutureMeasurements_ = c.queueFutureMeasurements_ ∧
    (propagatePOneStep c).initialized_ = c.initialized_ ∧
    (propagatePOneStep c).predictionMade_ = c.predictionMade_ ∧
    (propagatePOneStep c).isfuzzyState_ = c.isfuzzyState_ := by
  unfold propagatePOneStep
  cases c.stateBuffer_.find? (fun e => decide (c.time_P_propagated < e.time)) with
  | none => exact ⟨rfl, rfl, rfl, rfl, rfl, rfl⟩
  | some e => exact ⟨rfl, rfl, rfl, rfl, rfl, rfl⟩

/-- Overwriting an already empty queue is the identity. -/
theorem set_queue_empty_eq (c : MSF_Core) (hq : c.queueFutureMeasurements_ = []) :
    { c with queueFutureMeasurements_ := [] } = c := by
  cases c
  simp_all

/-- With an empty future queue, `handlePendingMeasurements` is the
identity. -/
theorem handlePendingMeasurements_empty_queue (c : MSF_Core)
    (hq : c.queueFutureMeasurements_ = []) :
    handlePendingMeasurements c = c := by
  unfold handlePendingMeasurements
  rw [hq]
  exact set_queue_empty_eq c hq

/-- Running strictly ascending inertial samples from an initialized core with
an empty future queue appends exactly the propagated chain and leaves the
other buffers and flags unchanged. -/
theorem runImu_fields : ∀ (inputs : List (Time × Vector3)) (c : MSF_Core) (last : EKFState),
    c.initialized_ = true → c.queueFutureMeasurements_ = [] →
    c.stateBuffer_.getLast? = some last → chainAbove last.time inputs = true →
    (runImu c inputs).stateBuffer_ = c.stateBuffer_ ++ chainList last inputs ∧
    (runImu c inputs).initialized_ = true ∧
    (runImu c inputs).queueFutureMeasurements_ = [] ∧
    (runImu c inputs).MeasurementBuffer_ = c.MeasurementBuffer_ ∧
    (runImu c inputs).isfuzzyState_ = c.isfuzzyState_ := by
  intro inputs
  induction inputs with
  | nil =>
    intro c last hinit hq _ _
    exact ⟨by simp [runImu, chainList], hinit, hq, rfl, rfl⟩
  | cons ta rest ih =>
    intro c last hinit hq hl habove
    obtain ⟨t, a⟩ := ta
    rw [chainAbove, Bool.and_eq_true] at habove
    have h1 : last.time < t := of_decide_eq_true habove.1
    have h2 : chainAbove t rest = true := habove.2
    have hpi : process_imu c a t = propagatePOneStep
        { c with stateBuffer_ := c.stateBuffer_ ++ [propagateState last t a]
                 predictionMade_ := true } := by
      simp only [process_imu, if_neg (show ¬(c.initialized_ = false) from by simp [hinit]),
        hl, if_neg (not_le.mpr h1)]
      apply handlePendingMeasurements_empty_queue
      exact (propagatePOneStep_fields _).2.2.1.trans hq
    have hmid := propagatePOneStep_fields
      { c with stateBuffer_ := c.stateBuffer_ ++ [propagateState last t a]
               predictionMade_ := true }
    have hnextLast : (process_imu c a t).stateBuffer_.getLast?
        = some (propagateState last t a) := by
      rw [hpi, hmid.1]
      exact List.getLast?_concat _
    have hnextInit : (process_imu c a t).initialized_ = true := by
      rw [hpi, hmid.2.2.2.1]; exact hinit
    have hnextQ : (process_imu c a t).queueFutureMeasurements_ = [] := by
      rw [hpi, hmid.2.2.1]; exact hq
    have hAbove2 : chainAbove (propagateState last t a).time rest = true := by
      rw [propagateState_time]; exact h2
    have hrec := ih (process_imu c a t) (propagateState last t a)
      hnextInit hnextQ hnextLast hAbove2
    have hbufmid : (process_imu c a t).stateBuffer_
        = c.stateBuffer_ ++ [propagateState last t a] := by
      rw [hpi, hmid.1]
    have hmeasmid : (process_imu c a t).MeasurementBuffer_ = c.MeasurementBuffer_ := by
      rw [hpi, hmid.2.1]
    have hfuzzymid : (process_imu c a t).isfuzzyState_ = c.isfuzzyState_ := by
      rw [hpi, hmid.2.2.2.2.2]
    refine ⟨?_, hrec.2.1, hrec.2.2.1, ?_, ?_⟩
    · show (runImu (process_imu c a t) rest).stateBuffer_ = _
      rw [hrec.1, hbufmid, chainList]
      simp [List.append_assoc]
    · show (runImu (process_imu c a t) rest).MeasurementBuffer_ = _
      rw [hrec.2.2.2.1, hmeasmid]
    · show (runImu (process_imu c a t) rest).isfuzzyState_ = _
      rw [hrec.2.2.2.2, hfuzzymid]

/-- The example seed core is reachable. -/
theorem exCore0_reachable : Reachable exCore0 :=
  Reachable.initStep initialCore 0 exN ⟨0, 0, 0⟩ Reachable.ctor

/-- The example core after one propagation step is reachable. -/
theorem exCore1_reachable : Reachable exCore1 :=
  Reachable.opStep exCore0 (Op.imu 1 ⟨1, 0, 0⟩) exCore0_reachable trivial

/-- C2: from any reachable core, after every further operation both history
buffers remain strictly increasing by time stamp (strict increase makes
entries unique by time stamp), and they already are so before the
operation. -/
theorem buffers_strictly_sorted (c : MSF_Core) (op : Op)
    (hr : Reachable c) (hok : OpOK op) :
    (List.Pairwise (· < ·) ((step op c).stateBuffer_.map EKFState.time) ∧
      List.Pairwise (· < ·) ((step op c).MeasurementBuffer_.map MeasurementBase.time)) ∧
    (List.Pairwise (· < ·) (c.stateBuffer_.map EKFState.time) ∧
      List.Pairwise (· < ·) (c.MeasurementBuffer_.map MeasurementBase.time)) := by
  have hg := reachable_good c hr
  have hs := (step_good op c hg hok).1
  exact ⟨⟨hs.1, hs.2.1⟩, hg.1, hg.2.1⟩

/-- Witness for C2 at a concrete reachable core and a concrete propagation
operation. -/
theorem buffers_strictly_sorted_witness :
    Reachable exCore1 ∧ OpOK (Op.imu 2 ⟨1, 0, 0⟩) ∧
    ((List.Pairwise (· < ·)
        ((step (Op.imu 2 ⟨1, 0, 0⟩) exCore1).stateBuffer_.map EKFState.time) ∧
      List.Pairwise (· < ·)
        ((step (Op.imu 2 ⟨1, 0, 0⟩) exCore1).MeasurementBuffer_.map MeasurementBase.time)) ∧
    (List.Pairwise (· < ·) (exCore1.stateBuffer_.map EKFState.time) ∧
      List.Pairwise (· < ·) (exCore1.MeasurementBuffer_.map MeasurementBase.time))) :=
  ⟨exCore1_reachable, trivial,
    buffers_strictly_sorted exCore1 (Op.imu 2 ⟨1, 0, 0⟩) exCore1_reachable trivial⟩

/-- C3: across any sequence of well-formed operations from a reachable core,
`time_P_propagated` never decreases. -/
theorem time_P_propagated_monotone (c : MSF_Core) (ops : List Op)
    (hr : Reachable c) (hok : ∀ op ∈ ops, OpOK op) :
    c.time_P_propagated ≤ (run ops c).time_P_propagated :=
  (run_good ops c (reachable_good c hr) hok).2

/-- Witness for C3 on a concrete reachable core and a concrete sequence of
all four kinds of operation. -/
theorem time_P_propagated_monotone_witness :
    Reachable exCore0 ∧
    (∀ op ∈ [Op.imu 1 ⟨1, 0, 0⟩, Op.meas ⟨1, 7, exCorr⟩,
        Op.correct 0 exCorr (1 / 10), Op.cleanup 60], OpOK op) ∧
    exCore0.time_P_propagated ≤
      (run [Op.imu 1 ⟨1, 0, 0⟩, Op.meas ⟨1, 7, exCorr⟩,
        Op.correct 0 exCorr (1 / 10), Op.cleanup 60] exCore0).time_P_propagated :=
  ⟨exCore0_reachable, by decide,
    time_P_propagated_monotone exCore0 _ exCore0_reachable (by decide)⟩

/-- C4: at every reachable core the covariance horizon is at or before the
newest State History Buffer entry, and in the Active state a measurement
whose time stamp exceeds the horizon is never corrected immediately: it is
appended to the Future-Measurement Queue and nothing else changes. -/
theorem horizon_le_newest_and_future_queued (c : MSF_Core) (hr : Reachable c) :
    (∀ last, c.stateBuffer_.getLast? = some last →
      c.time_P_propagated ≤ last.time) ∧
    (∀ m : MeasurementBase, c.initialized_ = true → c.predictionMade_ = true →
      c.time_P_propagated < m.time →
      addMeasurement c m =
        { c with queueFutureMeasurements_ := c.queueFutureMeasurements_ ++ [m] }) := by
  have hg := reachable_good c hr
  constructor
  · intro last hl
    have hho := hg.2.2.2
    unfold lastTimeL at hho
    rw [hl] at hho
    exact hho
  · intro m h1 h2 h3
    unfold addMeasurement
    rw [h1, h2, if_pos (show (true && true) = true from rfl), if_neg (not_le.mpr h3)]

/-- Witness for C4 at a concrete reachable Active core and a concrete future
measurement. -/
theorem horizon_le_newest_and_future_queued_witness :
    Reachable exCore1 ∧
    (∀ last, exCore1.stateBuffer_.getLast? = some last →
      exCore1.time_P_propagated ≤ last.time) ∧
    (∀ m : MeasurementBase, exCore1.initialized_ = true →
      exCore1.predictionMade_ = true →
      exCore1.time_P_propagated < m.time →
      addMeasurement exCore1 m =
        { exCore1 with
            queueFutureMeasurements_ := exCore1.queueFutureMeasurements_ ++ [m] }) :=
  ⟨exCore1_reachable,
    (horizon_le_newest_and_future_queued exCore1 exCore1_reachable).1,
    (horizon_le_newest_and_future_queued exCore1 exCore1_reachable).2⟩

/-- C5: `applyCorrection` fails exactly when the filter is not initialized or
the requested state cannot be located in the buffer; failure changes nothing;
and on success the corrected state and the replayed suffix remain applied (no
rollback), only the fuzzy flag possibly latching, everything else
unchanged. -/
theorem applyCorrection_result_spec (c : MSF_Core) (t : Time) (corr : ErrorState) (th : ℚ) :
    ((applyCorrection c t corr th).2 = false ↔
      (c.initialized_ = false ∨ splitAtTime t c.stateBuffer_ = none)) ∧
    ((applyCorrection c t corr th).2 = false → (applyCorrection c t corr th).1 = c) ∧
    (∀ pre d suf, c.initialized_ = true →
      splitAtTime t c.stateBuffer_ = some (pre, d, suf) →
      (applyCorrection c t corr th).1.stateBuffer_ =
          pre ++ correctState d corr :: replaySuffix (correctState d corr) suf ∧
        (applyCorrection c t corr th).1.isfuzzyState_ =
          (c.isfuzzyState_ || decide (th < nonDriftJump d (correctState d corr))) ∧
        (applyCorrection c t corr th).1.MeasurementBuffer_ = c.MeasurementBuffer_ ∧
        (applyCorrection c t corr th).1.queueFutureMeasurements_ =
          c.queueFutureMeasurements_ ∧
        (applyCorrection c t corr th).1.initialized_ = c.initialized_) := by
  refine ⟨?_, ?_, ?_⟩
  · constructor
    · intro hfail
      by_cases hb : c.initialized_ = false
      · exact Or.inl hb
      · have hb' : c.initialized_ = true := by
          cases hx : c.initialized_
          · exact absurd hx hb
          · rfl
        cases hs : splitAtTime t c.stateBuffer_ with
        | none => exact Or.inr rfl
        | some pds =>
          obtain ⟨pre, d, suf⟩ := pds
          rw [applyCorrection_success c t corr th pre d suf hb' hs] at hfail
          exact absurd hfail (by simp)
    · intro h
      rcases h with h | h
      · rw [applyCorrection_not_initialized c t corr th h]
      · by_cases hb : c.initialized_ = true
        · rw [applyCorrection_not_found c t corr th hb h]
        · have hb' : c.initialized_ = false := by
            cases hx : c.initialized_
            · rfl
            · exact absurd hx hb
          rw [applyCorrection_not_initialized c t corr th hb']
  · intro hfail
    by_cases hb : c.initialized_ = false
    · rw [applyCorrection_not_initialized c t corr th hb]
    · have hb' : c.initialized_ = true := by
        cases hx : c.initialized_
        · exact absurd hx hb
        · rfl
      cases hs : splitAtTime t c.stateBuffer_ with
      | none => rw [applyCorrection_not_found c t corr th hb' hs]
      | some pds =>
        obtain ⟨pre, d, suf⟩ := pds
        rw [applyCorrection_success c t corr th pre d suf hb' hs] at hfail
        exact absurd hfail (by simp)
  · intro pre d suf hinit hsplit
    rw [applyCorrection_success c t corr th pre d suf hinit hsplit]
    exact ⟨rfl, rfl, rfl, rfl, rfl⟩

/-- Witness for C5: on a concrete two-entry core, a concrete correction at
the seed state succeeds with the corrected state applied and everything but
the buffer, flag and horizon unchanged. -/
theorem applyCorrection_result_spec_witness :
    exCore1.initialized_ = true ∧
    splitAtTime 0 exCore1.stateBuffer_ = some ([], exSeed, [exE1]) ∧
    ((applyCorrection exCore1 0 exCorr (1 / 10)).1.stateBuffer_ =
        [] ++ correctState exSeed exCorr ::
          replaySuffix (correctState exSeed exCorr) [exE1] ∧
      (applyCorrection exCore1 0 exCorr (1 / 10)).1.isfuzzyState_ =
        (exCore1.isfuzzyState_ ||
          decide ((1 : ℚ) / 10 < nonDriftJump exSeed (correctState exSeed exCorr))) ∧
      (applyCorrection exCore1 0 exCorr (1 / 10)).1.MeasurementBuffer_ =
        exCore1.MeasurementBuffer_ ∧
      (applyCorrection exCore1 0 exCorr (1 / 10)).1.queueFutureMeasurements_ =
        exCore1.queueFutureMeasurements_ ∧
      (applyCorrection exCore1 0 exCorr (1 / 10)).1.initialized_ =
        exCore1.initialized_) :=
  ⟨by decide, by decide,
    (applyCorrection_result_spec exCore1 0 exCorr (1 / 10)).2.2
      [] exSeed [exE1] (by decide) (by decide)⟩

/-- C6: before `init` succeeds, propagation and correction requests are
no-ops or return an empty result, and the read-only state queries return
empty whenever the filter is Uninitialized or the buffer has no entries. -/
theorem uninitialized_requests_noop (c : MSF_Core) (a : Vector3) (t tq : Time)
    (m : MeasurementBase) (corr : ErrorState) (th : ℚ)
    (h : c.initialized_ = false) :
    process_imu c a t = c ∧
    addMeasurement c m = c ∧
    applyCorrection c tq corr th = (c, false) ∧
    getClosestState c tq = none ∧
    getStateAtTime c tq = none ∧
    (∀ c' : MSF_Core, c'.stateBuffer_ = [] → ∀ u : Time,
      getClosestState c' u = none ∧ getStateAtTime c' u = none) := by
  refine ⟨?_, ?_, applyCorrection_not_initialized c tq corr th h, ?_, ?_, ?_⟩
  · simp [process_imu, h]
  · simp [addMeasurement, h]
  · simp [getClosestState, h]
  · simp [getStateAtTime, h]
  · intro c' hb u
    constructor
    · unfold getClosestState
      by_cases hi : c'.initialized_ = false
      · rw [if_pos hi]
      · rw [if_neg hi, hb]
        rfl
    · unfold getStateAtTime
      by_cases hi : c'.initialized_ = false
      · rw [if_pos hi]
      · rw [if_neg hi, hb]
        rfl

/-- Witness for C6 at the freshly constructed (uninitialized) core and an
emptied-buffer core. -/
theorem uninitialized_requests_noop_witness :
    initialCore.initialized_ = false ∧
    (process_imu initialCore ⟨1, 0, 0⟩ 1 = initialCore ∧
      addMeasurement initialCore ⟨1, 7, exCorr⟩ = initialCore ∧
      applyCorrection initialCore 0 exCorr (1 / 10) = (initialCore, false) ∧
      getClosestState initialCore 0 = none ∧
      getStateAtTime initialCore 0 = none ∧
      (∀ c' : MSF_Core, c'.stateBuffer_ = [] → ∀ u : Time,
        getClosestState c' u = none ∧ getStateAtTime c' u = none)) :=
  ⟨rfl, uninitialized_requests_noop initialCore ⟨1, 0, 0⟩ 1 0 ⟨1, 7, exCorr⟩ exCorr
    (1 / 10) rfl⟩

/-- C9: on a successful correction from a non-fuzzy core, a non-drifting jump
exactly equal to the threshold does not set the fuzzy flag, a jump strictly
exceeding it does, and in both cases the corrected state remains applied. -/
theorem fuzzy_threshold_boundary (c : MSF_Core) (t : Time) (corr : ErrorState) (th : ℚ)
    (pre : List EKFState) (d : EKFState) (suf : List EKFState)
    (hinit : c.initialized_ = true)
    (hsplit : splitAtTime t c.stateBuffer_ = some (pre, d, suf))
    (hnof : c.isfuzzyState_ = false) :
    (applyCorrection c t corr th).2 = true ∧
    (nonDriftJump d (correctState d corr) = th →
      (applyCorrection c t corr th).1.isfuzzyState_ = false) ∧
    (th < nonDriftJump d (correctState d corr) →
      (applyCorrection c t corr th).1.isfuzzyState_ = true) ∧
    (applyCorrection c t corr th).1.stateBuffer_ =
      pre ++ correctState d corr :: replaySuffix (correctState d corr) suf := by
  rw [applyCorrection_success c t corr th pre d suf hinit hsplit]
  refine ⟨rfl, ?_, ?_, rfl⟩
  · intro he
    show (c.isfuzzyState_ || decide (th < nonDriftJump d (correctState d corr))) = false
    rw [hnof, he]
    simp
  · intro hgt
    show (c.isfuzzyState_ || decide (th < nonDriftJump d (correctState d corr))) = true
    rw [hnof]
    simp [hgt]

/-- Witness for C9: a concrete correction whose non-drifting jump equals the
threshold exactly, on the concrete two-entry core. -/
theorem fuzzy_threshold_boundary_witness :
    exCore1.initialized_ = true ∧
    splitAtTime 0 exCore1.stateBuffer_ = some ([], exSeed, [exE1]) ∧
    exCore1.isfuzzyState_ = false ∧
    nonDriftJump exSeed (correctState exSeed exCorr) = 1 ∧
    ((applyCorrection exCore1 0 exCorr 1).2 = true ∧
      (nonDriftJump exSeed (correctState exSeed exCorr) = 1 →
        (applyCorrection exCore1 0 exCorr 1).1.isfuzzyState_ = false) ∧
      (1 < nonDriftJump exSeed (correctState exSeed exCorr) →
        (applyCorrection exCore1 0 exCorr 1).1.isfuzzyState_ = true) ∧
      (applyCorrection exCore1 0 exCorr 1).1.stateBuffer_ =
        [] ++ correctState exSeed exCorr ::
          replaySuffix (correctState exSeed exCorr) [exE1]) :=
  ⟨by decide, by decide, by decide, by decide,
    fuzzy_threshold_boundary exCore1 0 exCorr 1 [] exSeed [exE1]
      (by decide) (by decide) (by decide)⟩

/-- C10: `applyCorrection` invoked without an explicit fuzzy-tracking
threshold uses the declared default 0.1: the call equals the call with
threshold 1/10, and on a successful correction the fuzzy flag latches exactly
when the non-drifting jump exceeds 1/10. -/
theorem applyCorrection_default_threshold (c : MSF_Core) (t : Time) (corr : ErrorState) :
    applyCorrection c t corr = applyCorrection c t corr (1 / 10) ∧
    (∀ pre d suf, c.initialized_ = true →
      splitAtTime t c.stateBuffer_ = some (pre, d, suf) →
      (applyCorrection c t corr).1.isfuzzyState_ =
        (c.isfuzzyState_ ||
          decide ((1 : ℚ) / 10 < nonDriftJump d (correctState d corr)))) := by
  refine ⟨rfl, ?_⟩
  intro pre d suf hinit hsplit
  rw [applyCorrection_success c t corr (1 / 10) pre d suf hinit hsplit]

/-- Witness for C10 on the concrete two-entry core: the example correction
jumps by 1 > 1/10, so the defaulted call latches the fuzzy flag. -/
theorem applyCorrection_default_threshold_witness :
    exCore1.initialized_ = true ∧
    splitAtTime 0 exCore1.stateBuffer_ = some ([], exSeed, [exE1]) ∧
    applyCorrection exCore1 0 exCorr = applyCorrection exCore1 0 exCorr (1 / 10) ∧
    (applyCorrection exCore1 0 exCorr).1.isfuzzyState_ =
      (exCore1.isfuzzyState_ ||
        decide ((1 : ℚ) / 10 < nonDriftJump exSeed (correctState exSeed exCorr))) :=
  ⟨by decide, by decide,
    (applyCorrection_default_threshold exCore1 0 exCorr).1,
    (applyCorrection_default_threshold exCore1 0 exCorr).2
      [] exSeed [exE1] (by decide) (by decide)⟩

/-- When every queued measurement lies within the horizon, draining applies
them all, in arrival order. -/
theorem drainLoop_all_within : ∀ (q : List MeasurementBase) (c : MSF_Core), Good c →
    (∀ x ∈ q, x.time ≤ c.time_P_propagated) →
    drainLoop q c = q.foldl applyMeasurement c := by
  intro q
  induction q with
  | nil => intro c _ _; rfl
  | cons m rest ih =>
    intro c hg hall
    have hm : m.time ≤ c.time_P_propagated := hall m (by simp)
    simp only [drainLoop, if_pos hm, List.foldl_cons]
    apply ih
    · exact (applyMeasurement_good c m hg).1
    · intro x hx
      exact le_trans (hall x (by simp [hx])) (applyMeasurement_good c m hg).2

/-- C7: in the Active state `addMeasurement` applies a measurement within the
propagated horizon immediately and enqueues one beyond it; and
`handlePendingMeasurements` drains the future queue front to back, so that
when every queued measurement lies within the horizon the result is the left
fold of measurement application over the queue in strict FIFO arrival order —
regardless of the measurements' time stamps. -/
theorem addMeasurement_routing_and_fifo (c : MSF_Core) (m : MeasurementBase)
    (hinit : c.initialized_ = true) (hpred : c.predictionMade_ = true) :
    (m.time ≤ c.time_P_propagated → addMeasurement c m = applyMeasurement c m) ∧
    (c.time_P_propagated < m.time →
      addMeasurement c m =
        { c with queueFutureMeasurements_ := c.queueFutureMeasurements_ ++ [m] }) ∧
    (∀ (q : List MeasurementBase) (c' : MSF_Core), Good c' →
      (∀ x ∈ q, x.time ≤ c'.time_P_propagated) →
      drainLoop q c' = q.foldl applyMeasurement c') ∧
    (∀ c'' : MSF_Core, handlePendingMeasurements c'' =
      drainLoop c''.queueFutureMeasurements_
        { c'' with queueFutureMeasurements_ := [] }) := by
  refine ⟨?_, ?_, fun q c' hg hall => drainLoop_all_within q c' hg hall, fun _ => rfl⟩
  · intro hm
    unfold addMeasurement
    rw [hinit, hpred, if_pos (show (true && true) = true from rfl), if_pos hm]
  · intro hm
    unfold addMeasurement
    rw [hinit, hpred, if_pos (show (true && true) = true from rfl),
      if_neg (not_le.mpr hm)]

/-- Witness for C7 on a concrete Active core, with a within-horizon
measurement routed to immediate application, and a concrete two-element queue
whose arrival order disagrees with its time stamp order drained in arrival
order. -/
theorem addMeasurement_routing_and_fifo_witness :
    exCore1.initialized_ = true ∧ exCore1.predictionMade_ = true ∧
    ((1 : ℚ) / 2 ≤ exCore1.time_P_propagated →
      addMeasurement exCore1 ⟨1 / 2, 7, exCorr⟩ =
        applyMeasurement exCore1 ⟨1 / 2, 7, exCorr⟩) ∧
    Good exCore1 ∧
    (∀ x ∈ [(⟨1, 5, exCorr⟩ : MeasurementBase), ⟨1 / 2, 6, exCorr⟩],
      x.time ≤ exCore1.time_P_propagated) ∧
    drainLoop [⟨1, 5, exCorr⟩, ⟨1 / 2, 6, exCorr⟩] exCore1 =
      [(⟨1, 5, exCorr⟩ : MeasurementBase), ⟨1 / 2, 6, exCorr⟩].foldl
        applyMeasurement exCore1 :=
  ⟨by decide, by decide,
    (addMeasurement_routing_and_fifo exCore1 ⟨1 / 2, 7, exCorr⟩
      (by decide) (by decide)).1,
    by decide, by decide,
    (addMeasurement_routing_and_fifo exCore1 ⟨1 / 2, 7, exCorr⟩
      (by decide) (by decide)).2.2.1
      [⟨1, 5, exCorr⟩, ⟨1 / 2, 6, exCorr⟩] exCore1 (by decide) (by decide)⟩

/-- C8: buffer cleanup removes no state and no measurement whose age relative
to the newest buffered state is within the delay tolerance, and everything
not removed is kept unchanged and in order (both pruned buffers are sublists
of the originals); the future queue is untouched. -/
theorem CleanUpBuffers_retention (c : MSF_Core) (dl : ℚ) (last : EKFState)
    (hl : c.stateBuffer_.getLast? = some last) :
    (∀ e ∈ c.stateBuffer_, last.time - e.time ≤ dl →
      e ∈ (CleanUpBuffers dl c).stateBuffer_) ∧
    (∀ m ∈ c.MeasurementBuffer_, last.time - m.time ≤ dl →
      m ∈ (CleanUpBuffers dl c).MeasurementBuffer_) ∧
    (CleanUpBuffers dl c).stateBuffer_.Sublist c.stateBuffer_ ∧
    (CleanUpBuffers dl c).MeasurementBuffer_.Sublist c.MeasurementBuffer_ ∧
    (CleanUpBuffers dl c).queueFutureMeasurements_ = c.queueFutureMeasurements_ := by
  simp only [CleanUpBuffers, hl]
  refine ⟨?_, ?_, List.filter_sublist _, List.filter_sublist _, trivial⟩
  · intro e he hage
    exact List.mem_filter.mpr ⟨he, decide_eq_true (by linarith)⟩
  · intro m hm hage
    exact List.mem_filter.mpr ⟨hm, decide_eq_true (by linarith)⟩

/-- Witness for C8 on the concrete two-entry core with a 60 second delay
tolerance. -/
theorem CleanUpBuffers_retention_witness :
    exCore1.stateBuffer_.getLast? = some exE1 ∧
    ((∀ e ∈ exCore1.stateBuffer_, exE1.time - e.time ≤ 60 →
        e ∈ (CleanUpBuffers 60 exCore1).stateBuffer_) ∧
      (∀ m ∈ exCore1.MeasurementBuffer_, exE1.time - m.time ≤ 60 →
        m ∈ (CleanUpBuffers 60 exCore1).MeasurementBuffer_) ∧
      (CleanUpBuffers 60 exCore1).stateBuffer_.Sublist exCore1.stateBuffer_ ∧
      (CleanUpBuffers 60 exCore1).MeasurementBuffer_.Sublist
        exCore1.MeasurementBuffer_ ∧
      (CleanUpBuffers 60 exCore1).queueFutureMeasurements_ =
        exCore1.queueFutureMeasurements_) :=
  ⟨by decide, CleanUpBuffers_retention exCore1 60 exE1 (by decide)⟩

/-- C1: correction-and-replay commutes with propagation: applying a
correction at the newest state `d` after `k` further strictly ascending
inertial samples have been propagated yields, entry for entry, the same State
History Buffer — and hence the same final state — as applying the correction
at `d` first and then propagating the same samples. -/
theorem applyCorrection_commutes_with_propagation (c : MSF_Core)
    (pre : List EKFState) (d : EKFState) (corr : ErrorState) (th : ℚ)
    (inputs : List (Time × Vector3))
    (hinit : c.initialized_ = true)
    (hq : c.queueFutureMeasurements_ = [])
    (hbuf : c.stateBuffer_ = pre ++ [d])
    (hpre : ∀ x ∈ pre, x.time < d.time)
    (habove : chainAbove d.time inputs = true) :
    (applyCorrection (runImu c inputs) d.time corr th).1.stateBuffer_ =
      (runImu (applyCorrection c d.time corr th).1 inputs).stateBuffer_ ∧
    (applyCorrection (runImu c inputs) d.time corr th).1.stateBuffer_.getLast? =
      (runImu (applyCorrection c d.time corr th).1 inputs).stateBuffer_.getLast? := by
  have hpre_ne : ∀ x ∈ pre, x.time ≠ d.time := fun x hx => ne_of_lt (hpre x hx)
  have hlA : c.stateBuffer_.getLast? = some d := by
    rw [hbuf]; exact List.getLast?_concat _
  have hA := runImu_fields inputs c d hinit hq hlA habove
  have hsplitA : splitAtTime d.time (runImu c inputs).stateBuffer_
      = some (pre, d, chainList d inputs) := by
    rw [hA.1, hbuf, List.append_assoc]
    exact splitAtTime_append d.time d (chainList d inputs) rfl pre hpre_ne
  have hAsucc := applyCorrection_success (runImu c inputs) d.time corr th
    pre d (chainList d inputs) hA.2.1 hsplitA
  have hsplitB : splitAtTime d.time c.stateBuffer_ = some (pre, d, []) := by
    rw [hbuf]
    exact splitAtTime_append d.time d [] rfl pre hpre_ne
  have hBsucc := applyCorrection_success c d.time corr th pre d [] hinit hsplitB
  set d2 := correctState d corr with hd2
  have hBbuf : (applyCorrection c d.time corr th).1.stateBuffer_ = pre ++ [d2] := by
    rw [hBsucc]
    show pre ++ d2 :: replaySuffix d2 [] = pre ++ [d2]
    rfl
  have hBinit : (applyCorrection c d.time corr th).1.initialized_ = true := by
    rw [hBsucc]; exact hinit
  have hBq : (applyCorrection c d.time corr th).1.queueFutureMeasurements_ = [] := by
    rw [hBsucc]; exact hq
  have hBlast : (applyCorrection c d.time corr th).1.stateBuffer_.getLast? = some d2 := by
    rw [hBbuf]; exact List.getLast?_concat _
  have habove2 : chainAbove d2.time inputs = true := by
    rw [hd2, correctState_time]; exact habove
  have hB := runImu_fields inputs (applyCorrection c d.time corr th).1 d2
    hBinit hBq hBlast habove2
  have hmain : (applyCorrection (runImu c inputs) d.time corr th).1.stateBuffer_ =
      (runImu (applyCorrection c d.time corr th).1 inputs).stateBuffer_ := by
    rw [hAsucc]
    show pre ++ d2 :: replaySuffix d2 (chainList d inputs) = _
    rw [hB.1, hBbuf, replaySuffix_chainList inputs d d2, List.append_assoc]
    rfl
  exact ⟨hmain, congrArg List.getLast? hmain⟩

/-- Witness for C1 on the concrete two-entry core: a correction at the newest
entry after one further propagation step commutes with that step. -/
theorem applyCorrection_commutes_with_propagation_witness :
    exCore1.initialized_ = true ∧
    exCore1.queueFutureMeasurements_ = [] ∧
    exCore1.stateBuffer_ = [exSeed] ++ [exE1] ∧
    (∀ x ∈ [exSeed], x.time < exE1.time) ∧
    chainAbove exE1.time [((2 : ℚ), ⟨1, 0, 0⟩)] = true ∧
    ((applyCorrection (runImu exCore1 [((2 : ℚ), ⟨1, 0, 0⟩)]) exE1.time exCorr
          (1 / 10)).1.stateBuffer_ =
        (runImu (applyCorrection exCore1 exE1.time exCorr (1 / 10)).1
          [((2 : ℚ), ⟨1, 0, 0⟩)]).stateBuffer_ ∧
      (applyCorrection (runImu exCore1 [((2 : ℚ), ⟨1, 0, 0⟩)]) exE1.time exCorr
          (1 / 10)).1.stateBuffer_.getLast? =
        (runImu (applyCorrection exCore1 exE1.time exCorr (1 / 10)).1
          [((2 : ℚ), ⟨1, 0, 0⟩)]).stateBuffer_.getLast?) :=
  ⟨by decide, by decide, by decide, by decide, by decide,
    applyCorrection_commutes_with_propagation exCore1 [exSeed] exE1 exCorr (1 / 10)
      [((2 : ℚ), ⟨1, 0, 0⟩)] (by decide) (by decide) (by decide) (by decide) (by decide)⟩

end MsfCore
